import Mathlib

/-!
Verification of the field-definition reconciler of the Shopify Terraform
provider (internal/provider/resource_metaobject_definition.go).

The Terraform framework value types are embedded as follows: a
`types.String` is `Option String` (`none` is the null value), a
`types.Bool` is `Option Bool`.  `ValueString` / `ValueBool` collapse the
null value to `""` / `false`, `ValueStringPointer` is the identity on
`Option String` (a nil pointer for the null value).  `reflect.DeepEqual`
on two `*MetaobjectFieldDefinitionModel` values is structural equality of
the embedded structures, and `types.String.Equal` is equality of
`Option String`.

Go maps keyed by strings are embedded as association lists with Go map
semantics (insert overwrites an existing key, otherwise appends); since
Go's map iteration order is unspecified, iteration over the leftover map
is determinized to insertion order, which is one of the admissible
orders.
-/

/-- ValueString of a terraform string value: the null value becomes `""`. -/
def valueString : Option String → String
  | some s => s
  | none => ""

/-- ValueBool of a terraform bool value: the null value becomes `false`. -/
def valueBool : Option Bool → Bool
  | some b => b
  | none => false

/-- MetafieldDefinitionValidationModel (resource_metafield_definition.go):
a name/value pair as terraform string values. -/
structure MetafieldDefinitionValidationModel where
  name : Option String
  value : Option String
deriving DecidableEq

/-- MetaobjectFieldDefinitionModel (resource_metaobject_definition.go,
lines 79-86): the terraform data model of one field definition. -/
structure MetaobjectFieldDefinitionModel where
  key : Option String
  name : Option String
  description : Option String
  type : Option String
  required : Option Bool
  validations : List MetafieldDefinitionValidationModel
deriving DecidableEq

/-- Key of a field definition model as the Go code reads it,
via Key.ValueString(). -/
def MetaobjectFieldDefinitionModel.keyString (m : MetaobjectFieldDefinitionModel) : String :=
  valueString m.key

/-- shopify.MetafieldDefinitionValidation: plain name/value strings. -/
structure MetafieldDefinitionValidation where
  name : String
  value : String
deriving DecidableEq

/-- shopify.MetaobjectFieldDefinitionCreateInput. -/
structure MetaobjectFieldDefinitionCreateInput where
  key : String
  name : Option String
  description : Option String
  type : String
  required : Bool
  validations : List MetafieldDefinitionValidation
deriving DecidableEq

/-- shopify.MetaobjectFieldDefinitionUpdateInput. -/
structure MetaobjectFieldDefinitionUpdateInput where
  key : String
  name : Option String
  description : Option String
  required : Bool
  validations : List MetafieldDefinitionValidation
deriving DecidableEq

/-- shopify.MetaobjectFieldDefinitionDeleteInput. -/
structure MetaobjectFieldDefinitionDeleteInput where
  key : String
deriving DecidableEq

/-- shopify.MetaobjectFieldDefinitionOperationInput: exactly one of the
Create/Update/Delete pointer fields is set in the Go struct, which is an
inductive with three constructors. -/
inductive MetaobjectFieldDefinitionOperationInput where
  | create (c : MetaobjectFieldDefinitionCreateInput)
  | update (u : MetaobjectFieldDefinitionUpdateInput)
  | delete (d : MetaobjectFieldDefinitionDeleteInput)
deriving DecidableEq

/-- Key carried by an operation input. -/
def MetaobjectFieldDefinitionOperationInput.opKey :
    MetaobjectFieldDefinitionOperationInput → String
  | .create c => c.key
  | .update u => u.key
  | .delete d => d.key

/-- convertValidationModelsToValidations (resource_metafield_definition.go,
lines 266-275). -/
def convertValidationModelsToValidations
    (validationModels : List MetafieldDefinitionValidationModel) :
    List MetafieldDefinitionValidation :=
  validationModels.map (fun model => ⟨valueString model.name, valueString model.value⟩)

/-- convertMetaobjectFieldDefinitionModelToCreateInput
(resource_metaobject_definition.go, lines 483-492). -/
def convertMetaobjectFieldDefinitionModelToCreateInput
    (model : MetaobjectFieldDefinitionModel) : MetaobjectFieldDefinitionCreateInput :=
  ⟨valueString model.key, model.name, model.description, valueString model.type,
    valueBool model.required, convertValidationModelsToValidations model.validations⟩

/-- Go map insert (`m[k] = v`): overwrite the entry with key `k` when
present, otherwise append a new entry. -/
def goMapInsert {α : Type} (m : List (String × α)) (k : String) (v : α) :
    List (String × α) :=
  if (m.map Prod.fst).contains k then
    m.map (fun p => if p.1 = k then (k, v) else p)
  else m ++ [(k, v)]

/-- Go map lookup (`v, ok := m[k]`). -/
def goMapLookup {α : Type} (m : List (String × α)) (k : String) : Option α :=
  (m.find? (fun p => p.1 == k)).map Prod.snd

/-- Go map delete (`delete(m, k)`). -/
def goMapErase {α : Type} (m : List (String × α)) (k : String) : List (String × α) :=
  m.filter (fun p => p.1 != k)

/-- Go map built up by inserting a list of key/value pairs in order. -/
def goMapOfList {α : Type} (l : List (String × α)) : List (String × α) :=
  l.foldl (fun m p => goMapInsert m p.1 p.2) []

/-- Result of the field-definition reconciliation inside
MetaobjectDefinitionResource.Update: the two operation batches and the
keys of the fields that are deleted and recreated.  The Go names of the
three accumulator variables are kept. -/
structure UpdateOperations where
  fieldDefinitions1stReq : List MetaobjectFieldDefinitionOperationInput
  fieldDefinitions2ndReq : List MetaobjectFieldDefinitionOperationInput
  recreateFieldDefinitions : List String
deriving DecidableEq

/-- The `for _, newFieldDef := range data.FieldDefinitions` loop of
MetaobjectDefinitionResource.Update (resource_metaobject_definition.go,
lines 305-337), together with the map it leaves behind: looks every
desired field definition up in (and removes it from) the prior map,
emitting a Create for a new key, nothing for a structurally identical
entry, Delete plus secondary Create plus a recreate notice for a type
change, and an Update otherwise. -/
def updateLoop (m : List (String × MetaobjectFieldDefinitionModel)) :
    List MetaobjectFieldDefinitionModel →
      List (String × MetaobjectFieldDefinitionModel) × UpdateOperations
  | [] => (m, ⟨[], [], []⟩)
  | newFieldDef :: rest =>
    match goMapLookup m newFieldDef.keyString with
    | some oldFieldDef =>
      let r := updateLoop (goMapErase m newFieldDef.keyString) rest
      if oldFieldDef = newFieldDef then r
      else if newFieldDef.type ≠ oldFieldDef.type then
        (r.1, ⟨.delete ⟨oldFieldDef.keyString⟩ :: r.2.fieldDefinitions1stReq,
          .create (convertMetaobjectFieldDefinitionModelToCreateInput newFieldDef) ::
            r.2.fieldDefinitions2ndReq,
          newFieldDef.keyString :: r.2.recreateFieldDefinitions⟩)
      else
        (r.1, ⟨.update ⟨newFieldDef.keyString, newFieldDef.name, newFieldDef.description,
            valueBool newFieldDef.required,
            convertValidationModelsToValidations newFieldDef.validations⟩ ::
              r.2.fieldDefinitions1stReq,
          r.2.fieldDefinitions2ndReq, r.2.recreateFieldDefinitions⟩)
    | none =>
      let r := updateLoop m rest
      (r.1, ⟨.create (convertMetaobjectFieldDefinitionModelToCreateInput newFieldDef) ::
          r.2.fieldDefinitions1stReq,
        r.2.fieldDefinitions2ndReq, r.2.recreateFieldDefinitions⟩)

/-- The pure field-definition diff of MetaobjectDefinitionResource.Update
(resource_metaobject_definition.go, lines 297-348): index the prior
snapshot by key, run the desired-iteration loop, then append a Delete for
every prior entry left over in the map. -/
def updateFieldDefinitions
    (oldFieldDefinitions newFieldDefinitions : List MetaobjectFieldDefinitionModel) :
    UpdateOperations :=
  let oldFieldDefinitionMap :=
    goMapOfList (oldFieldDefinitions.map (fun fd => (fd.keyString, fd)))
  let r := updateLoop oldFieldDefinitionMap newFieldDefinitions
  ⟨r.2.fieldDefinitions1stReq ++
      r.1.map (fun p => .delete ⟨p.2.keyString⟩),
    r.2.fieldDefinitions2ndReq, r.2.recreateFieldDefinitions⟩

/-- The warning log calls the update path makes for the recreate notice
(resource_metaobject_definition.go, lines 338-340): one tflog.Warn with
the message body of the call, which is the empty string, when the
recreate list is non-empty. -/
def updateWarnLogs (recreateFieldDefinitions : List String) : List String :=
  if recreateFieldDefinitions.length > 0 then [""] else []

/-- The fieldDefinitionOrderMap of convertMetaobjectDefinitionToResourceModel
(resource_metaobject_definition.go, lines 434-437): key of each field
definition of the plan data mapped to its index. -/
def fieldDefinitionOrderMap (dataFieldDefinitions : List MetaobjectFieldDefinitionModel) :
    List (String × Nat) :=
  goMapOfList (dataFieldDefinitions.enum.map (fun p => (p.2.keyString, p.1)))

/-- The sort.Slice call of convertMetaobjectDefinitionToResourceModel
(resource_metaobject_definition.go, lines 438-440): sort the refreshed
field definition models by the order-map index of their key, a missing
key reading as the Go zero value 0.  sort.Slice guarantees only a
permutation that is nondecreasing for the comparator, which mergeSort
realizes. -/
def sortFieldDefinitionModels
    (fieldDefinitionModels dataFieldDefinitions : List MetaobjectFieldDefinitionModel) :
    List MetaobjectFieldDefinitionModel :=
  fieldDefinitionModels.mergeSort (fun a b =>
    (goMapLookup (fieldDefinitionOrderMap dataFieldDefinitions) a.keyString).getD 0 ≤
      (goMapLookup (fieldDefinitionOrderMap dataFieldDefinitions) b.keyString).getD 0)

/-- Operation the desired-iteration loop emits into the first batch for one
desired entry, as a function of the map it is looked up in. -/
def primaryOpFor (m : List (String × MetaobjectFieldDefinitionModel))
    (d : MetaobjectFieldDefinitionModel) :
    Option MetaobjectFieldDefinitionOperationInput :=
  match goMapLookup m d.keyString with
  | some p =>
    if p = d then none
    else if d.type ≠ p.type then some (.delete ⟨p.keyString⟩)
    else some (.update ⟨d.keyString, d.name, d.description, valueBool d.required,
      convertValidationModelsToValidations d.validations⟩)
  | none => some (.create (convertMetaobjectFieldDefinitionModelToCreateInput d))

/-- Operation the desired-iteration loop emits into the second batch for one
desired entry. -/
def secondaryOpFor (m : List (String × MetaobjectFieldDefinitionModel))
    (d : MetaobjectFieldDefinitionModel) :
    Option MetaobjectFieldDefinitionOperationInput :=
  match goMapLookup m d.keyString with
  | some p =>
    if p = d then none
    else if d.type ≠ p.type then
      some (.create (convertMetaobjectFieldDefinitionModelToCreateInput d))
    else none
  | none => none

/-- Recreate-notice key the desired-iteration loop emits for one desired
entry. -/
def recreateKeyFor (m : List (String × MetaobjectFieldDefinitionModel))
    (d : MetaobjectFieldDefinitionModel) : Option String :=
  match goMapLookup m d.keyString with
  | some p =>
    if p = d then none
    else if d.type ≠ p.type then some d.keyString
    else none
  | none => none

/-- Association list the prior snapshot is indexed into, before Go map
insertion collapses duplicate keys. -/
def priorKeyMap (oldFieldDefinitions : List MetaobjectFieldDefinitionModel) :
    List (String × MetaobjectFieldDefinitionModel) :=
  oldFieldDefinitions.map (fun fd => (fd.keyString, fd))

/-- Example field definition used to evaluate the theorems on concrete
snapshots. -/
def exampleFieldA : MetaobjectFieldDefinitionModel :=
  ⟨some "a", some "Old", none, some "single_line_text_field", some false, []⟩

/-- Example field with the same key and attributes as `exampleFieldA` but
another type. -/
def exampleFieldARetyped : MetaobjectFieldDefinitionModel :=
  ⟨some "a", some "Old", none, some "multi_line_text_field", some false, []⟩

/-- Example field with the same key and type as `exampleFieldA` but another
name. -/
def exampleFieldARenamed : MetaobjectFieldDefinitionModel :=
  ⟨some "a", some "New", none, some "single_line_text_field", some false, []⟩

/-- Second example field definition, under key b. -/
def exampleFieldB : MetaobjectFieldDefinitionModel :=
  ⟨some "b", some "B", none, some "single_line_text_field", some false, []⟩

/-! ### Association-list lemmas for the Go map embedding -/

lemma goMapLookup_cons {α : Type} (p : String × α) (t : List (String × α)) (k : String) :
    goMapLookup (p :: t) k = if p.1 = k then some p.2 else goMapLookup t k := by
  unfold goMapLookup
  by_cases h : p.1 = k
  · rw [List.find?_cons_of_pos _ (by simpa using h), if_pos h]
    rfl
  · rw [List.find?_cons_of_neg _ (by simpa using h), if_neg h]

lemma goMapLookup_eq_none {α : Type} {m : List (String × α)} {k : String} :
    goMapLookup m k = none ↔ ∀ p ∈ m, p.1 ≠ k := by
  simp [goMapLookup, List.find?_eq_none]

lemma goMapLookup_mem {α : Type} {m : List (String × α)} {k : String} {v : α}
    (h : goMapLookup m k = some v) : (k, v) ∈ m := by
  unfold goMapLookup at h
  rcases Option.map_eq_some'.mp h with ⟨p, hp, hv⟩
  have hmem := List.mem_of_find?_eq_some hp
  have hk : p.1 = k := by simpa using List.find?_some hp
  have : p = (k, v) := by
    cases p
    simp_all
  exact this ▸ hmem

lemma goMapLookup_of_mem {α : Type} {m : List (String × α)} {k : String} {v : α}
    (hnd : (m.map Prod.fst).Nodup) (hmem : (k, v) ∈ m) :
    goMapLookup m k = some v := by
  induction m with
  | nil => simp at hmem
  | cons p t ih =>
    rw [goMapLookup_cons]
    rcases List.mem_cons.mp hmem with h | h
    · subst h
      simp
    · simp only [List.map_cons, List.nodup_cons] at hnd
      have hkt : k ∈ t.map Prod.fst := List.mem_map.mpr ⟨(k, v), h, rfl⟩
      have hne : p.1 ≠ k := fun he => hnd.1 (he ▸ hkt)
      rw [if_neg hne]
      exact ih hnd.2 h

lemma goMapLookup_erase {α : Type} {m : List (String × α)} {k k' : String}
    (h : k' ≠ k) : goMapLookup (goMapErase m k) k' = goMapLookup m k' := by
  induction m with
  | nil => rfl
  | cons p t ih =>
    by_cases hp : p.1 = k
    · have hstep : goMapErase (p :: t) k = goMapErase t k := by
        simp [goMapErase, hp]
      have hne : p.1 ≠ k' := fun he => h (he.symm.trans hp)
      rw [hstep, ih, goMapLookup_cons, if_neg hne]
    · have hstep : goMapErase (p :: t) k = p :: goMapErase t k := by
        simp [goMapErase, hp]
      rw [hstep, goMapLookup_cons, goMapLookup_cons, ih]

lemma goMapInsert_mem {α : Type} {m : List (String × α)} {k : String} {v : α} {p : String × α}
    (h : p ∈ goMapInsert m k v) : p ∈ m ∨ p = (k, v) := by
  unfold goMapInsert at h
  by_cases hc : (m.map Prod.fst).contains k
  · rw [if_pos hc] at h
    rcases List.mem_map.mp h with ⟨q, hq, he⟩
    by_cases hqk : q.1 = k
    · right
      rw [if_pos hqk] at he
      exact he.symm
    · left
      rw [if_neg hqk] at he
      exact he ▸ hq
  · rw [if_neg hc] at h
    rcases List.mem_append.mp h with h | h
    · exact Or.inl h
    · exact Or.inr (by simpa using h)

lemma goMapFoldl_forall {α : Type} {P : String × α → Prop} :
    ∀ (l acc : List (String × α)), (∀ p ∈ l, P p) → (∀ p ∈ acc, P p) →
      ∀ p ∈ l.foldl (fun m q => goMapInsert m q.1 q.2) acc, P p := by
  intro l
  induction l with
  | nil => intro acc _ hacc p hp; exact hacc p hp
  | cons q t ih =>
    intro acc h hacc p hp
    refine ih _ (fun x hx => h x (List.mem_cons_of_mem _ hx)) ?_ p hp
    intro x hx
    rcases goMapInsert_mem hx with hx | hx
    · exact hacc x hx
    · subst hx
      exact h q (List.mem_cons_self _ _)

lemma goMapOfList_forall {α : Type} {P : String × α → Prop} {l : List (String × α)}
    (h : ∀ p ∈ l, P p) : ∀ p ∈ goMapOfList l, P p :=
  goMapFoldl_forall l [] h (by simp)

lemma goMapFoldl_eq_append {α : Type} :
    ∀ (l acc : List (String × α)), ((acc ++ l).map Prod.fst).Nodup →
      l.foldl (fun m q => goMapInsert m q.1 q.2) acc = acc ++ l := by
  intro l
  induction l with
  | nil => intro acc _; simp
  | cons q t ih =>
    intro acc hacc
    have hq : ¬ (acc.map Prod.fst).contains q.1 = true := by
      rw [List.elem_iff]
      intro hmem
      simp only [List.map_append, List.map_cons, List.nodup_append] at hacc
      exact hacc.2.2 hmem (List.mem_cons_self _ _)
    have hstep : goMapInsert acc q.1 q.2 = acc ++ [q] := by
      unfold goMapInsert
      rw [if_neg hq]
    have hassoc : acc ++ [q] ++ t = acc ++ q :: t := by simp
    simp only [List.foldl_cons, hstep]
    rw [ih (acc ++ [q]) (by rw [hassoc]; exact hacc)]
    exact hassoc

lemma goMapOfList_eq_self {α : Type} {l : List (String × α)}
    (h : (l.map Prod.fst).Nodup) : goMapOfList l = l :=
  goMapFoldl_eq_append l [] (by simpa using h)

lemma primaryOpFor_erase {m : List (String × MetaobjectFieldDefinitionModel)} {k : String}
    {d : MetaobjectFieldDefinitionModel} (h : d.keyString ≠ k) :
    primaryOpFor (goMapErase m k) d = primaryOpFor m d := by
  unfold primaryOpFor
  rw [goMapLookup_erase h]

lemma secondaryOpFor_erase {m : List (String × MetaobjectFieldDefinitionModel)} {k : String}
    {d : MetaobjectFieldDefinitionModel} (h : d.keyString ≠ k) :
    secondaryOpFor (goMapErase m k) d = secondaryOpFor m d := by
  unfold secondaryOpFor
  rw [goMapLookup_erase h]

lemma recreateKeyFor_erase {m : List (String × MetaobjectFieldDefinitionModel)} {k : String}
    {d : MetaobjectFieldDefinitionModel} (h : d.keyString ≠ k) :
    recreateKeyFor (goMapErase m k) d = recreateKeyFor m d := by
  unfold recreateKeyFor
  rw [goMapLookup_erase h]

/-- When the desired keys are unique the loop result is: the leftover map is
the prior map restricted to keys not declared anymore, and each batch is the
per-entry operation of every desired entry relative to the initial map, in
desired order. -/
lemma updateLoop_eq (new : List MetaobjectFieldDefinitionModel) :
    ∀ m : List (String × MetaobjectFieldDefinitionModel),
      (new.map MetaobjectFieldDefinitionModel.keyString).Nodup →
      updateLoop m new =
        (m.filter (fun p =>
            decide (p.1 ∉ new.map MetaobjectFieldDefinitionModel.keyString)),
         ⟨new.filterMap (primaryOpFor m), new.filterMap (secondaryOpFor m),
          new.filterMap (recreateKeyFor m)⟩) := by
  induction new with
  | nil =>
    intro m _
    simp [updateLoop]
  | cons d rest ih =>
    intro m hnd
    simp only [List.map_cons, List.nodup_cons] at hnd
    obtain ⟨hdk, hnd'⟩ := hnd
    have hxk : ∀ x ∈ rest, x.keyString ≠ d.keyString := by
      intro x hx he
      exact hdk (he ▸ List.mem_map.mpr ⟨x, hx, rfl⟩)
    cases hl : goMapLookup m d.keyString with
    | none =>
      have hnone : ∀ p ∈ m, p.1 ≠ d.keyString := goMapLookup_eq_none.mp hl
      have hfuse : m.filter (fun p =>
            decide (p.1 ∉ rest.map MetaobjectFieldDefinitionModel.keyString)) =
          m.filter (fun p =>
            decide (p.1 ∉ d.keyString :: rest.map MetaobjectFieldDefinitionModel.keyString)) := by
        refine List.filter_congr ?_
        intro x hx
        rw [decide_eq_decide]
        simp [List.mem_cons, hnone x hx]
      have hprim : primaryOpFor m d =
          some (.create (convertMetaobjectFieldDefinitionModelToCreateInput d)) := by
        simp only [primaryOpFor, hl]
      have hsec : secondaryOpFor m d = none := by
        simp only [secondaryOpFor, hl]
      have hrec : recreateKeyFor m d = none := by
        simp only [recreateKeyFor, hl]
      simp only [updateLoop, hl, ih m hnd', List.map_cons, List.filterMap_cons, hprim, hsec,
        hrec, hfuse]
    | some oldFieldDef =>
      have hagree1 : rest.filterMap (primaryOpFor (goMapErase m d.keyString)) =
          rest.filterMap (primaryOpFor m) :=
        List.filterMap_congr (fun x hx => primaryOpFor_erase (hxk x hx))
      have hagree2 : rest.filterMap (secondaryOpFor (goMapErase m d.keyString)) =
          rest.filterMap (secondaryOpFor m) :=
        List.filterMap_congr (fun x hx => secondaryOpFor_erase (hxk x hx))
      have hagree3 : rest.filterMap (recreateKeyFor (goMapErase m d.keyString)) =
          rest.filterMap (recreateKeyFor m) :=
        List.filterMap_congr (fun x hx => recreateKeyFor_erase (hxk x hx))
      have hfuse : (goMapErase m d.keyString).filter (fun p =>
            decide (p.1 ∉ rest.map MetaobjectFieldDefinitionModel.keyString)) =
          m.filter (fun p =>
            decide (p.1 ∉ d.keyString :: rest.map MetaobjectFieldDefinitionModel.keyString)) := by
        unfold goMapErase
        rw [List.filter_filter]
        refine List.filter_congr ?_
        intro x _
        by_cases h1 : x.1 = d.keyString <;> by_cases h2 :
            x.1 ∈ rest.map MetaobjectFieldDefinitionModel.keyString <;>
          simp [h1, h2]
      have hrest := ih (goMapErase m d.keyString) hnd'
      by_cases he : oldFieldDef = d
      · have hprim : primaryOpFor m d = none := by
          simp only [primaryOpFor, hl]
          rw [if_pos he]
        have hsec : secondaryOpFor m d = none := by
          simp only [secondaryOpFor, hl]
          rw [if_pos he]
        have hrec : recreateKeyFor m d = none := by
          simp only [recreateKeyFor, hl]
          rw [if_pos he]
        simp only [updateLoop, hl, if_pos he, hrest, hagree1, hagree2, hagree3, hfuse,
          List.map_cons, List.filterMap_cons, hprim, hsec, hrec]
      · by_cases ht : d.type ≠ oldFieldDef.type
        · have hprim : primaryOpFor m d = some (.delete ⟨oldFieldDef.keyString⟩) := by
            simp only [primaryOpFor, hl]
            rw [if_neg he, if_pos ht]
          have hsec : secondaryOpFor m d =
              some (.create (convertMetaobjectFieldDefinitionModelToCreateInput d)) := by
            simp only [secondaryOpFor, hl]
            rw [if_neg he, if_pos ht]
          have hrec : recreateKeyFor m d = some d.keyString := by
            simp only [recreateKeyFor, hl]
            rw [if_neg he, if_pos ht]
          simp only [updateLoop, hl, if_neg he, if_pos ht, hrest, hagree1, hagree2, hagree3,
            hfuse, List.map_cons, List.filterMap_cons, hprim, hsec, hrec]
        · have hprim : primaryOpFor m d =
              some (.update ⟨d.keyString, d.name, d.description, valueBool d.required,
                convertValidationModelsToValidations d.validations⟩) := by
            simp only [primaryOpFor, hl]
            rw [if_neg he, if_neg ht]
          have hsec : secondaryOpFor m d = none := by
            simp only [secondaryOpFor, hl]
            rw [if_neg he, if_neg ht]
          have hrec : recreateKeyFor m d = none := by
            simp only [recreateKeyFor, hl]
            rw [if_neg he, if_neg ht]
          simp only [updateLoop, hl, if_neg he, if_neg ht, hrest, hagree1, hagree2, hagree3,
            hfuse, List.map_cons, List.filterMap_cons, hprim, hsec, hrec]

lemma priorKeyMap_fst (oldFieldDefinitions : List MetaobjectFieldDefinitionModel) :
    (priorKeyMap oldFieldDefinitions).map Prod.fst =
      oldFieldDefinitions.map MetaobjectFieldDefinitionModel.keyString := by
  simp [priorKeyMap, List.map_map, Function.comp]

lemma goMapOfList_priorKeyMap {oldFieldDefinitions : List MetaobjectFieldDefinitionModel}
    (hp : (oldFieldDefinitions.map MetaobjectFieldDefinitionModel.keyString).Nodup) :
    goMapOfList (priorKeyMap oldFieldDefinitions) = priorKeyMap oldFieldDefinitions :=
  goMapOfList_eq_self (by rw [priorKeyMap_fst]; exact hp)

/-- With unique keys in both snapshots, the whole reconciliation result in
closed form: the first batch is the per-entry operations in desired order
followed by one Delete per leftover prior entry, the second batch and the
recreate list are the per-entry secondary operations in desired order. -/
lemma updateFieldDefinitions_eq
    {oldFieldDefinitions newFieldDefinitions : List MetaobjectFieldDefinitionModel}
    (hp : (oldFieldDefinitions.map MetaobjectFieldDefinitionModel.keyString).Nodup)
    (hd : (newFieldDefinitions.map MetaobjectFieldDefinitionModel.keyString).Nodup) :
    updateFieldDefinitions oldFieldDefinitions newFieldDefinitions =
      ⟨newFieldDefinitions.filterMap (primaryOpFor (priorKeyMap oldFieldDefinitions)) ++
        ((priorKeyMap oldFieldDefinitions).filter (fun p =>
            decide (p.1 ∉ newFieldDefinitions.map MetaobjectFieldDefinitionModel.keyString))).map
          (fun p => .delete ⟨p.2.keyString⟩),
       newFieldDefinitions.filterMap (secondaryOpFor (priorKeyMap oldFieldDefinitions)),
       newFieldDefinitions.filterMap (recreateKeyFor (priorKeyMap oldFieldDefinitions))⟩ := by
  simp only [updateFieldDefinitions]
  rw [show goMapOfList (oldFieldDefinitions.map (fun fd => (fd.keyString, fd))) =
      goMapOfList (priorKeyMap oldFieldDefinitions) from rfl,
    goMapOfList_priorKeyMap hp, updateLoop_eq newFieldDefinitions _ hd]

/-- Counting in a filterMap: when exactly one member of a duplicate-free
list is mapped to `some x`, the image contains `x` exactly once. -/
lemma count_filterMap_eq_one {α β : Type} [DecidableEq α] [DecidableEq β]
    {f : α → Option β} {x : β} :
    ∀ {l : List α} {d : α}, l.Nodup → d ∈ l → f d = some x →
      (∀ y ∈ l, f y = some x → y = d) → (l.filterMap f).count x = 1 := by
  intro l
  induction l with
  | nil => intro d _ hd; simp at hd
  | cons a t ih =>
    intro d hnd hd hfd huniq
    simp only [List.nodup_cons] at hnd
    by_cases hda : d = a
    · subst hda
      rw [List.filterMap_cons, hfd]
      have hzero : (t.filterMap f).count x = 0 := by
        rw [List.count_eq_zero]
        intro hmem
        rcases List.mem_filterMap.mp hmem with ⟨y, hy, hfy⟩
        exact hnd.1 ((huniq y (List.mem_cons_of_mem _ hy) hfy) ▸ hy)
      rw [List.count_cons_self, hzero]
    · have hdt : d ∈ t := by
        rcases List.mem_cons.mp hd with h | h
        · exact absurd h hda
        · exact h
      have hfa : f a ≠ some x := by
        intro hfa
        exact hda ((huniq a (List.mem_cons_self _ _) hfa).symm)
      have hrec := ih hnd.2 hdt hfd (fun y hy hfy => huniq y (List.mem_cons_of_mem _ hy) hfy)
      rw [List.filterMap_cons]
      cases hfa' : f a with
      | none => exact hrec
      | some b =>
        have hbx : x ≠ b := fun hbe => hfa (hbe ▸ hfa')
        rw [List.count_cons_of_ne hbx]
        exact hrec

/-- Keys of a filterMap image, when each emitted value carries the key of
the member that produced it, form a sublist of the keys of the input. -/
lemma filterMap_key_sublist {α β : Type} {g : β → String} {h : α → String} :
    ∀ {l : List α} {f : α → Option β},
      (∀ x ∈ l, ∀ y, f x = some y → g y = h x) →
      ((l.filterMap f).map g).Sublist (l.map h) := by
  intro l
  induction l with
  | nil => intro f _; simp
  | cons a t ih =>
    intro f hkey
    rw [List.filterMap_cons]
    cases hfa : f a with
    | none =>
      rw [List.map_cons]
      exact List.Sublist.cons _ (ih (fun x hx => hkey x (List.mem_cons_of_mem _ hx)))
    | some b =>
      rw [List.map_cons, List.map_cons, hkey a (List.mem_cons_self _ _) b hfa]
      exact List.Sublist.cons₂ _ (ih (fun x hx => hkey x (List.mem_cons_of_mem _ hx)))

lemma priorKeyMap_lookup_inv {oldFieldDefinitions : List MetaobjectFieldDefinitionModel}
    {k : String} {q : MetaobjectFieldDefinitionModel}
    (h : goMapLookup (priorKeyMap oldFieldDefinitions) k = some q) :
    q ∈ oldFieldDefinitions ∧ q.keyString = k := by
  have hmem := goMapLookup_mem h
  rcases List.mem_map.mp hmem with ⟨fd, hfd, he⟩
  have hk : fd.keyString = k := congrArg Prod.fst he
  have hq : fd = q := congrArg Prod.snd he
  exact ⟨hq ▸ hfd, by rw [← hq, hk]⟩

lemma priorKeyMap_lookup_self {oldFieldDefinitions : List MetaobjectFieldDefinitionModel}
    {p : MetaobjectFieldDefinitionModel}
    (hp : (oldFieldDefinitions.map MetaobjectFieldDefinitionModel.keyString).Nodup)
    (hmem : p ∈ oldFieldDefinitions) :
    goMapLookup (priorKeyMap oldFieldDefinitions) p.keyString = some p :=
  goMapLookup_of_mem (by rw [priorKeyMap_fst]; exact hp)
    (List.mem_map.mpr ⟨p, hmem, rfl⟩)

lemma primaryOpFor_opKey {oldFieldDefinitions : List MetaobjectFieldDefinitionModel}
    {x : MetaobjectFieldDefinitionModel} {op : MetaobjectFieldDefinitionOperationInput}
    (h : primaryOpFor (priorKeyMap oldFieldDefinitions) x = some op) :
    op.opKey = x.keyString := by
  cases hl : goMapLookup (priorKeyMap oldFieldDefinitions) x.keyString with
  | none =>
    simp only [primaryOpFor, hl] at h
    cases h
    rfl
  | some q =>
    simp only [primaryOpFor, hl] at h
    have hq := (priorKeyMap_lookup_inv hl).2
    by_cases he : q = x
    · rw [if_pos he] at h
      exact Option.noConfusion h
    · rw [if_neg he] at h
      by_cases ht : x.type ≠ q.type
      · rw [if_pos ht] at h
        cases h
        exact hq
      · rw [if_neg ht] at h
        cases h
        rfl

lemma secondaryOpFor_opKey {oldFieldDefinitions : List MetaobjectFieldDefinitionModel}
    {x : MetaobjectFieldDefinitionModel} {op : MetaobjectFieldDefinitionOperationInput}
    (h : secondaryOpFor (priorKeyMap oldFieldDefinitions) x = some op) :
    op.opKey = x.keyString := by
  cases hl : goMapLookup (priorKeyMap oldFieldDefinitions) x.keyString with
  | none =>
    simp only [secondaryOpFor, hl] at h
    exact Option.noConfusion h
  | some q =>
    simp only [secondaryOpFor, hl] at h
    by_cases he : q = x
    · rw [if_pos he] at h
      exact Option.noConfusion h
    · rw [if_neg he] at h
      by_cases ht : x.type ≠ q.type
      · rw [if_pos ht] at h
        cases h
        rfl
      · rw [if_neg ht] at h
        exact Option.noConfusion h

lemma recreateKeyFor_key {oldFieldDefinitions : List MetaobjectFieldDefinitionModel}
    {x : MetaobjectFieldDefinitionModel} {s : String}
    (h : recreateKeyFor (priorKeyMap oldFieldDefinitions) x = some s) :
    s = x.keyString := by
  cases hl : goMapLookup (priorKeyMap oldFieldDefinitions) x.keyString with
  | none =>
    simp only [recreateKeyFor, hl] at h
    exact Option.noConfusion h
  | some q =>
    simp only [recreateKeyFor, hl] at h
    by_cases he : q = x
    · rw [if_pos he] at h
      exact Option.noConfusion h
    · rw [if_neg he] at h
      by_cases ht : x.type ≠ q.type
      · rw [if_pos ht] at h
        cases h
        rfl
      · rw [if_neg ht] at h
        exact Option.noConfusion h

lemma leftover_delete_count_zero
    {oldFieldDefinitions newFieldDefinitions : List MetaobjectFieldDefinitionModel}
    {op : MetaobjectFieldDefinitionOperationInput}
    (hop : op.opKey ∈ newFieldDefinitions.map MetaobjectFieldDefinitionModel.keyString) :
    (((priorKeyMap oldFieldDefinitions).filter (fun p =>
        decide (p.1 ∉ newFieldDefinitions.map MetaobjectFieldDefinitionModel.keyString))).map
      (fun p => MetaobjectFieldDefinitionOperationInput.delete ⟨p.2.keyString⟩)).count op = 0 := by
  rw [List.count_eq_zero]
  intro hmem
  rcases List.mem_map.mp hmem with ⟨p, hp, he⟩
  rcases List.mem_filter.mp hp with ⟨hpm, hdec⟩
  rcases List.mem_map.mp hpm with ⟨fd, _, hfd⟩
  have hkey : p.2.keyString = p.1 := by
    rw [← hfd]
  have : op.opKey = p.1 := by
    rw [← he, ← hkey]
    rfl
  exact (of_decide_eq_true hdec) (this ▸ hop)

lemma filterMap_some_map {α β : Type} (g : α → β) :
    ∀ l : List α, l.filterMap (fun a => some (g a)) = l.map g := by
  intro l
  induction l with
  | nil => rfl
  | cons a t ih => simp [List.filterMap_cons, ih]

/-- Unconditionally, the second batch of the loop consists of Create
operations whose keys are exactly the recreate-notice list, in order. -/
lemma updateLoop_secondary_shape :
    ∀ (new : List MetaobjectFieldDefinitionModel)
      (m : List (String × MetaobjectFieldDefinitionModel)),
      ∃ cs : List MetaobjectFieldDefinitionCreateInput,
        (updateLoop m new).2.fieldDefinitions2ndReq =
          cs.map MetaobjectFieldDefinitionOperationInput.create ∧
        (updateLoop m new).2.recreateFieldDefinitions = cs.map (fun c => c.key) := by
  intro new
  induction new with
  | nil => intro m; exact ⟨[], rfl, rfl⟩
  | cons d rest ih =>
    intro m
    cases hl : goMapLookup m d.keyString with
    | none =>
      obtain ⟨cs, h1, h2⟩ := ih m
      exact ⟨cs, by simp only [updateLoop, hl]; exact h1,
        by simp only [updateLoop, hl]; exact h2⟩
    | some q =>
      by_cases he : q = d
      · obtain ⟨cs, h1, h2⟩ := ih (goMapErase m d.keyString)
        exact ⟨cs, by simp only [updateLoop, hl, if_pos he]; exact h1,
          by simp only [updateLoop, hl, if_pos he]; exact h2⟩
      · by_cases ht : d.type ≠ q.type
        · obtain ⟨cs, h1, h2⟩ := ih (goMapErase m d.keyString)
          refine ⟨convertMetaobjectFieldDefinitionModelToCreateInput d :: cs, ?_, ?_⟩
          · simp only [updateLoop, hl, if_neg he, if_pos ht, List.map_cons, h1]
          · simp only [updateLoop, hl, if_neg he, if_pos ht, List.map_cons, h2]
            rfl
        · obtain ⟨cs, h1, h2⟩ := ih (goMapErase m d.keyString)
          exact ⟨cs, by simp only [updateLoop, hl, if_neg he, if_neg ht]; exact h1,
            by simp only [updateLoop, hl, if_neg he, if_neg ht]; exact h2⟩

/-! ### The claims -/

/-- C7: the reconciliation computation is a total function of its two input
snapshots: for every pair of prior and desired lists it returns a
(primary, secondary, recreateKeys) result, with no error condition or
failure mode.  Totality is by construction: `updateFieldDefinitions` is a
structurally recursive function into `UpdateOperations`, a type with no
error case. -/
theorem c7_total_function
    (oldFieldDefinitions newFieldDefinitions : List MetaobjectFieldDefinitionModel) :
    ∃ ops : UpdateOperations,
      updateFieldDefinitions oldFieldDefinitions newFieldDefinitions = ops :=
  ⟨_, rfl⟩

/-- C10: for every pair of input snapshots, the secondary batch contains
only Create operations, its length equals the length of the recreate-notice
list, and the keys of the secondary Creates are pointwise the entries of
the recreate-notice list. -/
theorem c10_secondary_matches_recreate_list
    (oldFieldDefinitions newFieldDefinitions : List MetaobjectFieldDefinitionModel) :
    (∀ op ∈ (updateFieldDefinitions oldFieldDefinitions
        newFieldDefinitions).fieldDefinitions2ndReq,
      ∃ c, op = MetaobjectFieldDefinitionOperationInput.create c) ∧
    (updateFieldDefinitions oldFieldDefinitions
        newFieldDefinitions).fieldDefinitions2ndReq.length =
      (updateFieldDefinitions oldFieldDefinitions
        newFieldDefinitions).recreateFieldDefinitions.length ∧
    (updateFieldDefinitions oldFieldDefinitions
        newFieldDefinitions).fieldDefinitions2ndReq.map
        MetaobjectFieldDefinitionOperationInput.opKey =
      (updateFieldDefinitions oldFieldDefinitions
        newFieldDefinitions).recreateFieldDefinitions := by
  obtain ⟨cs, h1, h2⟩ := updateLoop_secondary_shape newFieldDefinitions
    (goMapOfList (oldFieldDefinitions.map (fun fd => (fd.keyString, fd))))
  have e2 : (updateFieldDefinitions oldFieldDefinitions
      newFieldDefinitions).fieldDefinitions2ndReq =
      cs.map MetaobjectFieldDefinitionOperationInput.create := by
    simp only [updateFieldDefinitions]
    exact h1
  have e3 : (updateFieldDefinitions oldFieldDefinitions
      newFieldDefinitions).recreateFieldDefinitions = cs.map (fun c => c.key) := by
    simp only [updateFieldDefinitions]
    exact h2
  refine ⟨?_, ?_, ?_⟩
  · intro op hop
    rw [e2] at hop
    rcases List.mem_map.mp hop with ⟨c, _, he⟩
    exact ⟨c, he.symm⟩
  · rw [e2, e3]
    simp
  · rw [e2, e3, List.map_map]
    rfl

/-- Witness for C10 on a concrete type-changing pair of snapshots. -/
theorem c10_secondary_matches_recreate_list_witness :
    (∀ op ∈ (updateFieldDefinitions [exampleFieldA]
        [exampleFieldARetyped]).fieldDefinitions2ndReq,
      ∃ c, op = MetaobjectFieldDefinitionOperationInput.create c) ∧
    (updateFieldDefinitions [exampleFieldA]
        [exampleFieldARetyped]).fieldDefinitions2ndReq.length =
      (updateFieldDefinitions [exampleFieldA]
        [exampleFieldARetyped]).recreateFieldDefinitions.length ∧
    (updateFieldDefinitions [exampleFieldA]
        [exampleFieldARetyped]).fieldDefinitions2ndReq.map
        MetaobjectFieldDefinitionOperationInput.opKey =
      (updateFieldDefinitions [exampleFieldA]
        [exampleFieldARetyped]).recreateFieldDefinitions :=
  c10_secondary_matches_recreate_list [exampleFieldA] [exampleFieldARetyped]

/-- C9: whenever the recreate-notice list is non-empty, the update path
emits exactly one warning whose message body is the empty string. -/
theorem c9_recreate_warning_empty_message
    (oldFieldDefinitions newFieldDefinitions : List MetaobjectFieldDefinitionModel)
    (h : (updateFieldDefinitions oldFieldDefinitions
        newFieldDefinitions).recreateFieldDefinitions ≠ []) :
    updateWarnLogs (updateFieldDefinitions oldFieldDefinitions
        newFieldDefinitions).recreateFieldDefinitions = [""] := by
  unfold updateWarnLogs
  rw [if_pos]
  exact List.length_pos.mpr h

/-- Witness for C9 on a concrete type-changing pair of snapshots. -/
theorem c9_recreate_warning_empty_message_witness :
    (updateFieldDefinitions [exampleFieldA]
        [exampleFieldARetyped]).recreateFieldDefinitions ≠ [] ∧
    updateWarnLogs (updateFieldDefinitions [exampleFieldA]
        [exampleFieldARetyped]).recreateFieldDefinitions = [""] :=
  ⟨by decide,
    c9_recreate_warning_empty_message [exampleFieldA] [exampleFieldARetyped] (by decide)⟩

/-- C4: for every desired snapshot with all-unique keys and an empty prior
snapshot, every desired entry produces exactly one Create in the primary
batch (in desired order), the secondary batch is empty, and the
recreate-notice list is empty. -/
theorem c4_empty_prior_all_creates
    (newFieldDefinitions : List MetaobjectFieldDefinitionModel)
    (hd : (newFieldDefinitions.map MetaobjectFieldDefinitionModel.keyString).Nodup) :
    updateFieldDefinitions [] newFieldDefinitions =
      ⟨newFieldDefinitions.map (fun fd => .create
          (convertMetaobjectFieldDefinitionModelToCreateInput fd)), [], []⟩ := by
  rw [updateFieldDefinitions_eq (by simp) hd]
  have h1 : ∀ l : List MetaobjectFieldDefinitionModel,
      l.filterMap (primaryOpFor (priorKeyMap [])) = l.map (fun fd => .create
        (convertMetaobjectFieldDefinitionModelToCreateInput fd)) := by
    intro l
    induction l with
    | nil => rfl
    | cons a t ih =>
      have ha : primaryOpFor (priorKeyMap []) a = some (.create
          (convertMetaobjectFieldDefinitionModelToCreateInput a)) := rfl
      simp [List.filterMap_cons, ha, ih]
  have h2 : newFieldDefinitions.filterMap (secondaryOpFor (priorKeyMap [])) = [] :=
    List.filterMap_eq_nil_iff.mpr (fun a _ => rfl)
  have h3 : newFieldDefinitions.filterMap (recreateKeyFor (priorKeyMap [])) = [] :=
    List.filterMap_eq_nil_iff.mpr (fun a _ => rfl)
  rw [h1, h2, h3]
  simp [priorKeyMap]

/-- Witness for C4 on a concrete two-element desired snapshot. -/
theorem c4_empty_prior_all_creates_witness :
    updateFieldDefinitions [] [exampleFieldA, exampleFieldB] =
      ⟨[exampleFieldA, exampleFieldB].map (fun fd => .create
          (convertMetaobjectFieldDefinitionModelToCreateInput fd)), [], []⟩ :=
  c4_empty_prior_all_creates [exampleFieldA, exampleFieldB] (by decide)

/-- C5: for every prior snapshot with all-unique keys and an empty desired
snapshot, the reconciler emits exactly one Delete per prior entry in the
primary batch and nothing else in either batch. -/
theorem c5_empty_desired_all_deletes
    (oldFieldDefinitions : List MetaobjectFieldDefinitionModel)
    (hp : (oldFieldDefinitions.map MetaobjectFieldDefinitionModel.keyString).Nodup) :
    updateFieldDefinitions oldFieldDefinitions [] =
      ⟨oldFieldDefinitions.map (fun fd => .delete ⟨fd.keyString⟩), [], []⟩ := by
  rw [updateFieldDefinitions_eq hp (by simp)]
  simp only [List.filterMap_nil, List.nil_append]
  have hfil : (priorKeyMap oldFieldDefinitions).filter (fun p =>
      decide (p.1 ∉ ([] : List MetaobjectFieldDefinitionModel).map
        MetaobjectFieldDefinitionModel.keyString)) = priorKeyMap oldFieldDefinitions := by
    refine List.filter_eq_self.mpr ?_
    intro a _
    simp
  rw [hfil, priorKeyMap, List.map_map]
  rfl

/-- Witness for C5 on a concrete two-element prior snapshot. -/
theorem c5_empty_desired_all_deletes_witness :
    updateFieldDefinitions [exampleFieldA, exampleFieldB] [] =
      ⟨[exampleFieldA, exampleFieldB].map (fun fd => .delete ⟨fd.keyString⟩), [], []⟩ :=
  c5_empty_desired_all_deletes [exampleFieldA, exampleFieldB] (by decide)

/-- C3: if the prior and desired snapshots contain structurally equal field
definitions per key (in any order, keys unique), the reconciler emits
nothing: both batches and the recreate-notice list are empty. -/
theorem c3_idempotent_no_ops
    (oldFieldDefinitions newFieldDefinitions : List MetaobjectFieldDefinitionModel)
    (hperm : newFieldDefinitions.Perm oldFieldDefinitions)
    (hd : (newFieldDefinitions.map MetaobjectFieldDefinitionModel.keyString).Nodup) :
    updateFieldDefinitions oldFieldDefinitions newFieldDefinitions = ⟨[], [], []⟩ := by
  have hp : (oldFieldDefinitions.map MetaobjectFieldDefinitionModel.keyString).Nodup :=
    ((hperm.map _).nodup_iff).mp hd
  rw [updateFieldDefinitions_eq hp hd]
  have hlook : ∀ d ∈ newFieldDefinitions,
      goMapLookup (priorKeyMap oldFieldDefinitions) d.keyString = some d := by
    intro d hdm
    exact priorKeyMap_lookup_self hp (hperm.subset hdm)
  have h1 : newFieldDefinitions.filterMap (primaryOpFor (priorKeyMap oldFieldDefinitions)) =
      [] := by
    refine List.filterMap_eq_nil_iff.mpr ?_
    intro d hdm
    simp [primaryOpFor, hlook d hdm]
  have h2 : newFieldDefinitions.filterMap (secondaryOpFor (priorKeyMap oldFieldDefinitions)) =
      [] := by
    refine List.filterMap_eq_nil_iff.mpr ?_
    intro d hdm
    simp [secondaryOpFor, hlook d hdm]
  have h3 : newFieldDefinitions.filterMap (recreateKeyFor (priorKeyMap oldFieldDefinitions)) =
      [] := by
    refine List.filterMap_eq_nil_iff.mpr ?_
    intro d hdm
    simp [recreateKeyFor, hlook d hdm]
  have hfil : (priorKeyMap oldFieldDefinitions).filter (fun p =>
      decide (p.1 ∉ newFieldDefinitions.map
        MetaobjectFieldDefinitionModel.keyString)) = [] := by
    refine List.filter_eq_nil_iff.mpr ?_
    intro p hpm
    rcases List.mem_map.mp hpm with ⟨fd, hfd, he⟩
    have hold : p.1 ∈ oldFieldDefinitions.map MetaobjectFieldDefinitionModel.keyString := by
      rw [← congrArg Prod.fst he]
      exact List.mem_map.mpr ⟨fd, hfd, rfl⟩
    have hnew : p.1 ∈ newFieldDefinitions.map MetaobjectFieldDefinitionModel.keyString :=
      ((hperm.map _).mem_iff).mpr hold
    simp [hnew]
  rw [h1, h2, h3, hfil]
  rfl

/-- Witness for C3: the same two fields in swapped order. -/
theorem c3_idempotent_no_ops_witness :
    updateFieldDefinitions [exampleFieldA, exampleFieldB]
      [exampleFieldB, exampleFieldA] = ⟨[], [], []⟩ :=
  c3_idempotent_no_ops [exampleFieldA, exampleFieldB] [exampleFieldB, exampleFieldA]
    (by decide) (by decide)

/-- C1: if a key exists in both snapshots with identical attributes except
type (which differs), the reconciler emits exactly one Delete for that key
into the primary batch, exactly one Create with the desired attributes into
the secondary batch, and the key appears exactly once in the
recreate-notice list. -/
theorem c1_type_change_emits_delete_create_recreate
    (oldFieldDefinitions newFieldDefinitions : List MetaobjectFieldDefinitionModel)
    (p d : MetaobjectFieldDefinitionModel)
    (hp : (oldFieldDefinitions.map MetaobjectFieldDefinitionModel.keyString).Nodup)
    (hd : (newFieldDefinitions.map MetaobjectFieldDefinitionModel.keyString).Nodup)
    (hpm : p ∈ oldFieldDefinitions) (hdm : d ∈ newFieldDefinitions)
    (hkey : p.key = d.key) (hname : p.name = d.name)
    (hdesc : p.description = d.description) (hreq : p.required = d.required)
    (hval : p.validations = d.validations) (htype : p.type ≠ d.type) :
    (updateFieldDefinitions oldFieldDefinitions
        newFieldDefinitions).fieldDefinitions1stReq.count (.delete ⟨d.keyString⟩) = 1 ∧
    (updateFieldDefinitions oldFieldDefinitions
        newFieldDefinitions).fieldDefinitions2ndReq.count
        (.create (convertMetaobjectFieldDefinitionModelToCreateInput d)) = 1 ∧
    (updateFieldDefinitions oldFieldDefinitions
        newFieldDefinitions).recreateFieldDefinitions.count d.keyString = 1 := by
  have hkeyS : p.keyString = d.keyString := by
    unfold MetaobjectFieldDefinitionModel.keyString
    rw [hkey]
  have hne : ¬ (p = d) := fun he => htype (congrArg MetaobjectFieldDefinitionModel.type he)
  have hlook : goMapLookup (priorKeyMap oldFieldDefinitions) d.keyString = some p := by
    rw [← hkeyS]
    exact priorKeyMap_lookup_self hp hpm
  have hnodup : newFieldDefinitions.Nodup := hd.of_map
  have huniqKey : ∀ y ∈ newFieldDefinitions, y.keyString = d.keyString → y = d :=
    fun y hy he => List.inj_on_of_nodup_map hd hy hdm he
  have hprim : primaryOpFor (priorKeyMap oldFieldDefinitions) d =
      some (.delete ⟨d.keyString⟩) := by
    simp only [primaryOpFor, hlook]
    rw [if_neg hne, if_pos (Ne.symm htype), hkeyS]
  have hsec : secondaryOpFor (priorKeyMap oldFieldDefinitions) d =
      some (.create (convertMetaobjectFieldDefinitionModelToCreateInput d)) := by
    simp only [secondaryOpFor, hlook]
    rw [if_neg hne, if_pos (Ne.symm htype)]
  have hrec : recreateKeyFor (priorKeyMap oldFieldDefinitions) d = some d.keyString := by
    simp only [recreateKeyFor, hlook]
    rw [if_neg hne, if_pos (Ne.symm htype)]
  rw [updateFieldDefinitions_eq hp hd]
  refine ⟨?_, ?_, ?_⟩
  · simp only [List.count_append]
    rw [count_filterMap_eq_one hnodup hdm hprim
        (fun y hy hfy => huniqKey y hy (primaryOpFor_opKey hfy).symm),
      @leftover_delete_count_zero oldFieldDefinitions newFieldDefinitions
        (.delete ⟨d.keyString⟩) (List.mem_map.mpr ⟨d, hdm, rfl⟩)]
  · exact count_filterMap_eq_one hnodup hdm hsec
      (fun y hy hfy => huniqKey y hy (secondaryOpFor_opKey hfy).symm)
  · exact count_filterMap_eq_one hnodup hdm hrec
      (fun y hy hfy => huniqKey y hy (recreateKeyFor_key hfy).symm)

/-- Witness for C1: the spec scenario with the key a changing type from
single to multi line text. -/
theorem c1_type_change_emits_delete_create_recreate_witness :
    (updateFieldDefinitions [exampleFieldA]
        [exampleFieldARetyped]).fieldDefinitions1stReq.count
        (.delete ⟨exampleFieldARetyped.keyString⟩) = 1 ∧
    (updateFieldDefinitions [exampleFieldA]
        [exampleFieldARetyped]).fieldDefinitions2ndReq.count
        (.create (convertMetaobjectFieldDefinitionModelToCreateInput exampleFieldARetyped)) = 1 ∧
    (updateFieldDefinitions [exampleFieldA]
        [exampleFieldARetyped]).recreateFieldDefinitions.count
        exampleFieldARetyped.keyString = 1 :=
  c1_type_change_emits_delete_create_recreate [exampleFieldA] [exampleFieldARetyped]
    exampleFieldA exampleFieldARetyped (by decide) (by decide) (by decide) (by decide)
    (by decide) (by decide) (by decide) (by decide) (by decide) (by decide)

/-- C6: if a key exists in both snapshots with identical type but differing
name, description, required or validations, the reconciler emits exactly
one Update for that key into the primary batch and nothing into the
secondary batch for that key. -/
theorem c6_same_type_update_only
    (oldFieldDefinitions newFieldDefinitions : List MetaobjectFieldDefinitionModel)
    (p d : MetaobjectFieldDefinitionModel)
    (hp : (oldFieldDefinitions.map MetaobjectFieldDefinitionModel.keyString).Nodup)
    (hd : (newFieldDefinitions.map MetaobjectFieldDefinitionModel.keyString).Nodup)
    (hpm : p ∈ oldFieldDefinitions) (hdm : d ∈ newFieldDefinitions)
    (hkey : p.key = d.key) (htype : p.type = d.type)
    (hdiff : p.name ≠ d.name ∨ p.description ≠ d.description ∨
      p.required ≠ d.required ∨ p.validations ≠ d.validations) :
    (updateFieldDefinitions oldFieldDefinitions
        newFieldDefinitions).fieldDefinitions1stReq.count
        (.update ⟨d.keyString, d.name, d.description, valueBool d.required,
          convertValidationModelsToValidations d.validations⟩) = 1 ∧
    ∀ op ∈ (updateFieldDefinitions oldFieldDefinitions
        newFieldDefinitions).fieldDefinitions2ndReq,
      op.opKey ≠ d.keyString := by
  have hkeyS : p.keyString = d.keyString := by
    unfold MetaobjectFieldDefinitionModel.keyString
    rw [hkey]
  have hne : ¬ (p = d) := by
    intro he
    subst he
    rcases hdiff with h | h | h | h <;> exact h rfl
  have hlook : goMapLookup (priorKeyMap oldFieldDefinitions) d.keyString = some p := by
    rw [← hkeyS]
    exact priorKeyMap_lookup_self hp hpm
  have hnodup : newFieldDefinitions.Nodup := hd.of_map
  have huniqKey : ∀ y ∈ newFieldDefinitions, y.keyString = d.keyString → y = d :=
    fun y hy he => List.inj_on_of_nodup_map hd hy hdm he
  have hnt : ¬ (d.type ≠ p.type) := fun hcon => hcon htype.symm
  have hprim : primaryOpFor (priorKeyMap oldFieldDefinitions) d =
      some (.update ⟨d.keyString, d.name, d.description, valueBool d.required,
        convertValidationModelsToValidations d.validations⟩) := by
    simp only [primaryOpFor, hlook]
    rw [if_neg hne, if_neg hnt]
  have hsec : secondaryOpFor (priorKeyMap oldFieldDefinitions) d = none := by
    simp only [secondaryOpFor, hlook]
    rw [if_neg hne, if_neg hnt]
  rw [updateFieldDefinitions_eq hp hd]
  constructor
  · simp only [List.count_append]
    rw [count_filterMap_eq_one hnodup hdm hprim
        (fun y hy hfy => huniqKey y hy (primaryOpFor_opKey hfy).symm),
      @leftover_delete_count_zero oldFieldDefinitions newFieldDefinitions
        (.update ⟨d.keyString, d.name, d.description, valueBool d.required,
          convertValidationModelsToValidations d.validations⟩)
        (List.mem_map.mpr ⟨d, hdm, rfl⟩)]
  · intro op hop hopk
    rcases List.mem_filterMap.mp hop with ⟨y, hy, hfy⟩
    have hyd : y = d := huniqKey y hy ((secondaryOpFor_opKey hfy).symm.trans hopk)
    subst hyd
    rw [hsec] at hfy
    exact Option.noConfusion hfy

/-- Witness for C6: the spec scenario renaming the field under key a
without changing its type. -/
theorem c6_same_type_update_only_witness :
    (updateFieldDefinitions [exampleFieldA]
        [exampleFieldARenamed]).fieldDefinitions1stReq.count
        (.update ⟨exampleFieldARenamed.keyString, exampleFieldARenamed.name,
          exampleFieldARenamed.description, valueBool exampleFieldARenamed.required,
          convertValidationModelsToValidations exampleFieldARenamed.validations⟩) = 1 ∧
    ∀ op ∈ (updateFieldDefinitions [exampleFieldA]
        [exampleFieldARenamed]).fieldDefinitions2ndReq,
      op.opKey ≠ exampleFieldARenamed.keyString :=
  c6_same_type_update_only [exampleFieldA] [exampleFieldARenamed]
    exampleFieldA exampleFieldARenamed (by decide) (by decide) (by decide) (by decide)
    (by decide) (by decide) (Or.inl (by decide))

/-- C2: the primary batch splits into the desired-iteration operations,
whose keys form a subsequence of the desired key order, followed by the
removal Deletes of prior keys absent from desired; the secondary batch's
keys also follow desired order. -/
theorem c2_primary_secondary_order
    (oldFieldDefinitions newFieldDefinitions : List MetaobjectFieldDefinitionModel)
    (hp : (oldFieldDefinitions.map MetaobjectFieldDefinitionModel.keyString).Nodup)
    (hd : (newFieldDefinitions.map MetaobjectFieldDefinitionModel.keyString).Nodup) :
    ∃ phase1 phase2,
      (updateFieldDefinitions oldFieldDefinitions
          newFieldDefinitions).fieldDefinitions1stReq = phase1 ++ phase2 ∧
      ((phase1.map MetaobjectFieldDefinitionOperationInput.opKey).Sublist
        (newFieldDefinitions.map MetaobjectFieldDefinitionModel.keyString)) ∧
      (∀ op ∈ phase2, ∃ dk : MetaobjectFieldDefinitionDeleteInput,
        op = .delete dk ∧
        dk.key ∈ oldFieldDefinitions.map MetaobjectFieldDefinitionModel.keyString ∧
        dk.key ∉ newFieldDefinitions.map MetaobjectFieldDefinitionModel.keyString) ∧
      (((updateFieldDefinitions oldFieldDefinitions
          newFieldDefinitions).fieldDefinitions2ndReq.map
          MetaobjectFieldDefinitionOperationInput.opKey).Sublist
        (newFieldDefinitions.map MetaobjectFieldDefinitionModel.keyString)) := by
  rw [updateFieldDefinitions_eq hp hd]
  refine ⟨newFieldDefinitions.filterMap (primaryOpFor (priorKeyMap oldFieldDefinitions)),
    ((priorKeyMap oldFieldDefinitions).filter (fun p =>
      decide (p.1 ∉ newFieldDefinitions.map
        MetaobjectFieldDefinitionModel.keyString))).map
      (fun p => .delete ⟨p.2.keyString⟩), rfl, ?_, ?_, ?_⟩
  · exact filterMap_key_sublist (fun x _ op h => primaryOpFor_opKey h)
  · intro op hop
    rcases List.mem_map.mp hop with ⟨q, hq, he⟩
    rcases List.mem_filter.mp hq with ⟨hqm, hdec⟩
    rcases List.mem_map.mp hqm with ⟨fd, hfd, hfe⟩
    have hq1 : q.1 = fd.keyString := (congrArg Prod.fst hfe).symm
    have hq2 : q.2 = fd := (congrArg Prod.snd hfe).symm
    refine ⟨⟨q.2.keyString⟩, he.symm, ?_, ?_⟩
    · rw [hq2]
      exact List.mem_map.mpr ⟨fd, hfd, rfl⟩
    · rw [hq2, ← hq1]
      exact of_decide_eq_true hdec
  · exact filterMap_key_sublist (fun x _ op h => secondaryOpFor_opKey h)

/-- Witness for C2: one kept field, one removed field and one added field. -/
theorem c2_primary_secondary_order_witness :
    ∃ phase1 phase2,
      (updateFieldDefinitions [exampleFieldA, exampleFieldB]
          [exampleFieldARetyped]).fieldDefinitions1stReq = phase1 ++ phase2 ∧
      ((phase1.map MetaobjectFieldDefinitionOperationInput.opKey).Sublist
        ([exampleFieldARetyped].map MetaobjectFieldDefinitionModel.keyString)) ∧
      (∀ op ∈ phase2, ∃ dk : MetaobjectFieldDefinitionDeleteInput,
        op = .delete dk ∧
        dk.key ∈ [exampleFieldA, exampleFieldB].map
          MetaobjectFieldDefinitionModel.keyString ∧
        dk.key ∉ [exampleFieldARetyped].map MetaobjectFieldDefinitionModel.keyString) ∧
      (((updateFieldDefinitions [exampleFieldA, exampleFieldB]
          [exampleFieldARetyped]).fieldDefinitions2ndReq.map
          MetaobjectFieldDefinitionOperationInput.opKey).Sublist
        ([exampleFieldARetyped].map MetaobjectFieldDefinitionModel.keyString)) :=
  c2_primary_secondary_order [exampleFieldA, exampleFieldB] [exampleFieldARetyped]
    (by decide) (by decide)

/-! ### The re-sort of the refreshed field definition list -/

lemma enum_key_fst (dataFieldDefinitions : List MetaobjectFieldDefinitionModel) :
    ((dataFieldDefinitions.enum.map (fun p => (p.2.keyString, p.1))).map Prod.fst) =
      dataFieldDefinitions.map MetaobjectFieldDefinitionModel.keyString := by
  rw [List.map_map]
  rw [show (Prod.fst ∘ fun p : Nat × MetaobjectFieldDefinitionModel =>
      (p.2.keyString, p.1)) = (MetaobjectFieldDefinitionModel.keyString ∘ Prod.snd) from rfl]
  rw [← List.map_map, List.enum_map_snd]

lemma fieldDefinitionOrderMap_eq {dataFieldDefinitions : List MetaobjectFieldDefinitionModel}
    (hdata : (dataFieldDefinitions.map MetaobjectFieldDefinitionModel.keyString).Nodup) :
    fieldDefinitionOrderMap dataFieldDefinitions =
      dataFieldDefinitions.enum.map (fun p => (p.2.keyString, p.1)) := by
  unfold fieldDefinitionOrderMap
  exact goMapOfList_eq_self (by rw [enum_key_fst]; exact hdata)

lemma orderMap_lookup_getElem {dataFieldDefinitions : List MetaobjectFieldDefinitionModel}
    (hdata : (dataFieldDefinitions.map MetaobjectFieldDefinitionModel.keyString).Nodup)
    {i : Nat} (hi : i < dataFieldDefinitions.length) :
    goMapLookup (fieldDefinitionOrderMap dataFieldDefinitions)
      (dataFieldDefinitions[i].keyString) = some i := by
  rw [fieldDefinitionOrderMap_eq hdata]
  refine goMapLookup_of_mem (by rw [enum_key_fst]; exact hdata) ?_
  have hei : i < dataFieldDefinitions.enum.length := by
    rw [List.enum_length]
    exact hi
  have hge : dataFieldDefinitions.enum[i] = (i, dataFieldDefinitions[i]) :=
    List.getElem_enum _ _ _
  exact List.mem_map.mpr ⟨(i, dataFieldDefinitions[i]), hge ▸ List.getElem_mem hei, rfl⟩

/-- A comparator-based sort by an injective index function sends the list of
keys to the base order restricted to the keys present. -/
lemma mergeSort_index_key {α : Type} (key : α → String) (f : String → Nat)
    (l : List α) (base : List String)
    (hbase : List.Pairwise (fun a b => f a < f b) base)
    (hinj : ∀ a ∈ base, ∀ b ∈ base, f a = f b → a = b)
    (hnd : (l.map key).Nodup)
    (hsub : ∀ x ∈ l, key x ∈ base) :
    ((l.mergeSort (fun a b => decide (f (key a) ≤ f (key b)))).map key) =
      base.filter (fun k => decide (k ∈ l.map key)) := by
  have htrans : ∀ a b c : α, decide (f (key a) ≤ f (key b)) = true →
      decide (f (key b) ≤ f (key c)) = true →
      decide (f (key a) ≤ f (key c)) = true := by
    intro a b c h1 h2
    simp only [decide_eq_true_eq] at h1 h2 ⊢
    exact Nat.le_trans h1 h2
  have htotal : ∀ a b : α, (decide (f (key a) ≤ f (key b)) ||
      decide (f (key b) ≤ f (key a))) = true := by
    intro a b
    rcases Nat.le_total (f (key a)) (f (key b)) with h | h <;> simp [h]
  have hperm : (l.mergeSort (fun a b => decide (f (key a) ≤ f (key b)))).Perm l :=
    List.mergeSort_perm l _
  have hpermKeys : ((l.mergeSort (fun a b =>
      decide (f (key a) ≤ f (key b)))).map key).Perm (l.map key) := hperm.map key
  have hrknd : ((l.mergeSort (fun a b => decide (f (key a) ≤ f (key b)))).map key).Nodup :=
    (hpermKeys.nodup_iff).mpr hnd
  have hsorted := List.sorted_mergeSort htrans htotal l
  have pwLe : List.Pairwise (fun x y : String => f x ≤ f y)
      ((l.mergeSort (fun a b => decide (f (key a) ≤ f (key b)))).map key) :=
    List.Pairwise.map key (fun a b h => of_decide_eq_true h) hsorted
  have pwLt : List.Pairwise (fun x y : String => f x < f y)
      ((l.mergeSort (fun a b => decide (f (key a) ≤ f (key b)))).map key) := by
    refine List.Pairwise.imp_of_mem ?_ (pwLe.and hrknd)
    intro a b ha hb hab
    have haBase : a ∈ base := by
      rcases List.mem_map.mp (hpermKeys.mem_iff.mp ha) with ⟨x, hx, he⟩
      exact he ▸ hsub x hx
    have hbBase : b ∈ base := by
      rcases List.mem_map.mp (hpermKeys.mem_iff.mp hb) with ⟨x, hx, he⟩
      exact he ▸ hsub x hx
    refine Nat.lt_of_le_of_ne hab.1 ?_
    intro hfe
    exact hab.2 (hinj a haBase b hbBase hfe)
  have hbaseNodup : base.Nodup :=
    hbase.imp (fun h => fun he => absurd (he ▸ h) (Nat.lt_irrefl _))
  have htargetNodup : (base.filter (fun k => decide (k ∈ l.map key))).Nodup :=
    hbaseNodup.filter _
  have htargetPerm : ((l.mergeSort (fun a b =>
      decide (f (key a) ≤ f (key b)))).map key).Perm
      (base.filter (fun k => decide (k ∈ l.map key))) := by
    refine (List.perm_ext_iff_of_nodup hrknd htargetNodup).mpr ?_
    intro k
    rw [List.mem_filter]
    constructor
    · intro hk
      have hmk : k ∈ l.map key := hpermKeys.mem_iff.mp hk
      rcases List.mem_map.mp hmk with ⟨x, hx, he⟩
      exact ⟨he ▸ hsub x hx, decide_eq_true hmk⟩
    · intro hk
      exact hpermKeys.mem_iff.mpr (of_decide_eq_true hk.2)
  haveI : IsAntisymm String (fun a b => f a < f b) :=
    ⟨fun a b h1 h2 => absurd h2 (Nat.lt_asymm h1)⟩
  exact List.eq_of_perm_of_sorted htargetPerm pwLt (hbase.filter _)

lemma orderIdx_pairwise {dataFieldDefinitions : List MetaobjectFieldDefinitionModel}
    (hdata : (dataFieldDefinitions.map MetaobjectFieldDefinitionModel.keyString).Nodup) :
    List.Pairwise (fun a b : String =>
        (goMapLookup (fieldDefinitionOrderMap dataFieldDefinitions) a).getD 0 <
        (goMapLookup (fieldDefinitionOrderMap dataFieldDefinitions) b).getD 0)
      (dataFieldDefinitions.map MetaobjectFieldDefinitionModel.keyString) := by
  rw [List.pairwise_iff_get]
  intro i j hij
  have hi : i.val < dataFieldDefinitions.length := by simpa using i.isLt
  have hj : j.val < dataFieldDefinitions.length := by simpa using j.isLt
  have hgi : (dataFieldDefinitions.map MetaobjectFieldDefinitionModel.keyString).get i =
      (dataFieldDefinitions[i.val]).keyString := by
    rw [List.get_eq_getElem, List.getElem_map]
  have hgj : (dataFieldDefinitions.map MetaobjectFieldDefinitionModel.keyString).get j =
      (dataFieldDefinitions[j.val]).keyString := by
    rw [List.get_eq_getElem, List.getElem_map]
  rw [hgi, hgj, orderMap_lookup_getElem hdata hi, orderMap_lookup_getElem hdata hj]
  exact hij

lemma orderIdx_inj {dataFieldDefinitions : List MetaobjectFieldDefinitionModel}
    (hdata : (dataFieldDefinitions.map MetaobjectFieldDefinitionModel.keyString).Nodup) :
    ∀ a ∈ dataFieldDefinitions.map MetaobjectFieldDefinitionModel.keyString,
      ∀ b ∈ dataFieldDefinitions.map MetaobjectFieldDefinitionModel.keyString,
      (goMapLookup (fieldDefinitionOrderMap dataFieldDefinitions) a).getD 0 =
        (goMapLookup (fieldDefinitionOrderMap dataFieldDefinitions) b).getD 0 → a = b := by
  intro a ha b hb he
  rcases List.mem_iff_getElem.mp ha with ⟨i, hi, hia⟩
  rcases List.mem_iff_getElem.mp hb with ⟨j, hj, hjb⟩
  have hi' : i < dataFieldDefinitions.length := by simpa using hi
  have hj' : j < dataFieldDefinitions.length := by simpa using hj
  have hia' : a = dataFieldDefinitions[i].keyString := by
    rw [← hia, List.getElem_map]
  have hjb' : b = dataFieldDefinitions[j].keyString := by
    rw [← hjb, List.getElem_map]
  rw [hia', hjb', orderMap_lookup_getElem hdata hi', orderMap_lookup_getElem hdata hj'] at he
  simp only [Option.getD_some] at he
  subst he
  rw [hia', hjb']

/-- C8: for a refreshed field-definition list whose keys are unique and all
declared in the desired snapshot, and a desired snapshot with unique keys,
the post-processing sort returns a permutation of the refreshed list whose
keys appear in the order the keys appear in the desired snapshot. -/
theorem c8_sort_refreshed_by_desired_order
    (fieldDefinitionModels dataFieldDefinitions : List MetaobjectFieldDefinitionModel)
    (hdata : (dataFieldDefinitions.map MetaobjectFieldDefinitionModel.keyString).Nodup)
    (hmod : (fieldDefinitionModels.map MetaobjectFieldDefinitionModel.keyString).Nodup)
    (hsub : ∀ fd ∈ fieldDefinitionModels,
      fd.keyString ∈ dataFieldDefinitions.map MetaobjectFieldDefinitionModel.keyString) :
    (sortFieldDefinitionModels fieldDefinitionModels dataFieldDefinitions).Perm
      fieldDefinitionModels ∧
    (sortFieldDefinitionModels fieldDefinitionModels dataFieldDefinitions).map
        MetaobjectFieldDefinitionModel.keyString =
      (dataFieldDefinitions.map MetaobjectFieldDefinitionModel.keyString).filter
        (fun k => decide (k ∈ fieldDefinitionModels.map
          MetaobjectFieldDefinitionModel.keyString)) := by
  constructor
  · simp only [sortFieldDefinitionModels]
    exact List.mergeSort_perm _ _
  · simp only [sortFieldDefinitionModels]
    exact mergeSort_index_key MetaobjectFieldDefinitionModel.keyString
      (fun k => (goMapLookup (fieldDefinitionOrderMap dataFieldDefinitions) k).getD 0)
      fieldDefinitionModels
      (dataFieldDefinitions.map MetaobjectFieldDefinitionModel.keyString)
      (orderIdx_pairwise hdata) (orderIdx_inj hdata) hmod hsub

/-- Witness for C8: the remote returns keys b then a, the desired snapshot
declares a then b, and the sort restores a then b. -/
theorem c8_sort_refreshed_by_desired_order_witness :
    (sortFieldDefinitionModels [exampleFieldB, exampleFieldA]
      [exampleFieldA, exampleFieldB]).Perm [exampleFieldB, exampleFieldA] ∧
    (sortFieldDefinitionModels [exampleFieldB, exampleFieldA]
        [exampleFieldA, exampleFieldB]).map MetaobjectFieldDefinitionModel.keyString =
      ([exampleFieldA, exampleFieldB].map MetaobjectFieldDefinitionModel.keyString).filter
        (fun k => decide (k ∈ [exampleFieldB, exampleFieldA].map
          MetaobjectFieldDefinitionModel.keyString)) :=
  c8_sort_refreshed_by_desired_order [exampleFieldB, exampleFieldA]
    [exampleFieldA, exampleFieldB] (by decide) (by decide) (by decide)
